import Mathlib

/-!
Verification of the operating-hours parser and open/closed evaluator of
place_hours_filter.py (class PlaceHoursFilter).

Strings are modelled as lists of characters.  The Python regular expressions
used by the source are hand-compiled into deterministic matchers over
character lists; `re.search` is modelled by trying every start position from
the left.  Python's datetime.time constructor (which raises ValueError on
out-of-range values) is modelled by an Option-returning smart constructor,
and every ValueError is modelled as a none result.
-/

/-- View of a Lean string literal as the list of its characters. -/
def cs (s : String) : List Char := s.data

/-- ASCII whitespace recognised by Python's str.strip and by the regex
class backslash-s on ASCII text: space, tab, newline, carriage return,
vertical tab, form feed. -/
def pyIsSpace (c : Char) : Bool :=
  c == ' ' || c == '\t' || c == '\n' || c == '\r' ||
  c == Char.ofNat 11 || c == Char.ofNat 12

/-- ASCII lower-casing of a character, as Python str.lower acts on the
ASCII range (written as an explicit table to keep proofs elementary). -/
def lowerChar (c : Char) : Char :=
  match c with
  | 'A' => 'a' | 'B' => 'b' | 'C' => 'c' | 'D' => 'd' | 'E' => 'e'
  | 'F' => 'f' | 'G' => 'g' | 'H' => 'h' | 'I' => 'i' | 'J' => 'j'
  | 'K' => 'k' | 'L' => 'l' | 'M' => 'm' | 'N' => 'n' | 'O' => 'o'
  | 'P' => 'p' | 'Q' => 'q' | 'R' => 'r' | 'S' => 's' | 'T' => 't'
  | 'U' => 'u' | 'V' => 'v' | 'W' => 'w' | 'X' => 'x' | 'Y' => 'y'
  | 'Z' => 'z'
  | other => other

/-- ASCII upper-casing of a character, as Python str.upper acts on the
ASCII range. -/
def upperChar (c : Char) : Char :=
  match c with
  | 'a' => 'A' | 'b' => 'B' | 'c' => 'C' | 'd' => 'D' | 'e' => 'E'
  | 'f' => 'F' | 'g' => 'G' | 'h' => 'H' | 'i' => 'I' | 'j' => 'J'
  | 'k' => 'K' | 'l' => 'L' | 'm' => 'M' | 'n' => 'N' | 'o' => 'O'
  | 'p' => 'P' | 'q' => 'Q' | 'r' => 'R' | 's' => 'S' | 't' => 'T'
  | 'u' => 'U' | 'v' => 'V' | 'w' => 'W' | 'x' => 'X' | 'y' => 'Y'
  | 'z' => 'Z'
  | other => other

/-- str.lower on a character-list string. -/
def lowerL (l : List Char) : List Char := l.map lowerChar

/-- str.upper on a character-list string. -/
def upperL (l : List Char) : List Char := l.map upperChar

/-- str.lstrip: drop leading whitespace. -/
def lstrip (l : List Char) : List Char := l.dropWhile pyIsSpace

/-- str.rstrip: drop trailing whitespace. -/
def rstrip (l : List Char) : List Char := (lstrip l.reverse).reverse

/-- str.strip: drop whitespace at both ends. -/
def pyStrip (l : List Char) : List Char := lstrip (rstrip l)

/-- Python substring test `needle in hay` on character lists. -/
def containsSub (needle : List Char) : List Char → Bool
  | [] => needle.isEmpty
  | c :: t => needle.isPrefixOf (c :: t) || containsSub needle t

/-- str.split(",") : split on every comma, keeping empty pieces. -/
def splitOnComma : List Char → List (List Char)
  | [] => [[]]
  | c :: t =>
    if c = ',' then [] :: splitOnComma t
    else
      match splitOnComma t with
      | h :: r => (c :: h) :: r
      | [] => [[c]]

/-- A Python datetime.time value restricted to hour and minute, as used by
place_hours_filter.py. -/
structure PyTime where
  hour : Nat
  minute : Nat
deriving DecidableEq, Repr

/-- Comparison of two datetime.time values (lexicographic, seconds are
always zero in this program). -/
def timeLe (a b : PyTime) : Bool :=
  decide (a.hour < b.hour ∨ (a.hour = b.hour ∧ a.minute ≤ b.minute))

/-- datetime.time(hour, minute): validates its arguments and raises
ValueError (modelled as none) when out of range. -/
def mkTime (h m : Nat) : Option PyTime :=
  if h ≤ 23 ∧ m ≤ 59 then some ⟨h, m⟩ else none

/-- Numeric value of a decimal digit character. -/
def digVal (c : Char) : Nat := c.toNat - 48

/-- Matcher for the anchored pattern d{1,2}:d{2} at the head of the
input, with the greedy two-digit hour preferred as in Python's re; returns
the hour digits, the minute digits and the remaining input.  Backtracking
from a two-digit to a one-digit hour can never succeed (the second digit is
not a colon), so the match is deterministic. -/
def matchClockAt : List Char → Option (List Char × List Char × List Char)
  | c0 :: c1 :: rest =>
    if c0.isDigit then
      if c1.isDigit then
        match rest with
        | ':' :: m0 :: m1 :: r =>
          if m0.isDigit && m1.isDigit then some ([c0, c1], [m0, m1], r) else none
        | _ => none
      else if c1 = ':' then
        match rest with
        | m0 :: m1 :: r =>
          if m0.isDigit && m1.isDigit then some ([c0], [m0, m1], r) else none
        | _ => none
      else none
    else none
  | _ => none

/-- re.search: try the anchored matcher at every start position from the
left, returning the first success. -/
def searchA {α : Type} (f : List Char → Option α) : List Char → Option α
  | [] => none
  | c :: t =>
    match f (c :: t) with
    | some r => some r
    | none => searchA f t

/-- Anchored matcher for parse_time's pattern (d{1,2}):(d{2})s*(AM|PM),
applied to the upper-cased query string; returns hour value, minute value
and whether the suffix was PM. -/
def matchClockSuffixAt (l : List Char) : Option (Nat × Nat × Bool) :=
  match matchClockAt l with
  | none => none
  | some (hd, md, r) =>
    match r.dropWhile pyIsSpace with
    | 'A' :: 'M' :: _ => some (hd.foldl (fun a c => 10 * a + digVal c) 0,
                               md.foldl (fun a c => 10 * a + digVal c) 0, false)
    | 'P' :: 'M' :: _ => some (hd.foldl (fun a c => 10 * a + digVal c) 0,
                               md.foldl (fun a c => 10 * a + digVal c) 0, true)
    | _ => none

/-- Anchored matcher for parse_time's suffix-less pattern (d{1,2}):(d{2}). -/
def matchClockOnlyAt (l : List Char) : Option (Nat × Nat) :=
  match matchClockAt l with
  | none => none
  | some (hd, md, _) =>
    some (hd.foldl (fun a c => 10 * a + digVal c) 0,
          md.foldl (fun a c => 10 * a + digVal c) 0)

/-- PlaceHoursFilter.parse_time: strip and upper-case the input; if it
contains AM or PM search for a 12-hour pattern and convert (12 AM to hour 0,
PM other than 12 adds 12), otherwise search for a bare H:MM pattern.  A
failed search or an out-of-range time raises ValueError, modelled as none. -/
def parse_time (time_str : List Char) : Option PyTime :=
  let t := upperL (pyStrip time_str)
  if containsSub (cs "AM") t || containsSub (cs "PM") t then
    match searchA matchClockSuffixAt t with
    | some (h, m, pm) =>
      let h' := if pm = false ∧ h = 12 then 0
                else if pm = true ∧ h ≠ 12 then h + 12
                else h
      mkTime h' m
    | none => none
  else
    match searchA matchClockOnlyAt t with
    | some (h, m) => mkTime h m
    | none => none

/-- PlaceHoursFilter.day_mapping, in source order. -/
def day_mapping : List (List Char × List Char) :=
  [(cs "monday", cs "Monday"), (cs "tuesday", cs "Tuesday"),
   (cs "wednesday", cs "Wednesday"), (cs "thursday", cs "Thursday"),
   (cs "friday", cs "Friday"), (cs "saturday", cs "Saturday"),
   (cs "sunday", cs "Sunday"),
   (cs "mon", cs "Monday"), (cs "tue", cs "Tuesday"),
   (cs "wed", cs "Wednesday"), (cs "thu", cs "Thursday"),
   (cs "fri", cs "Friday"), (cs "sat", cs "Saturday"),
   (cs "sun", cs "Sunday")]

/-- First-match association lookup (a Python dict access; keys of an actual
dict are unique, so first-match agrees with dict semantics). -/
def lookupAssoc {β : Type} (k : List Char) : List (List Char × β) → Option β
  | [] => none
  | (k', v) :: t => if k = k' then some v else lookupAssoc k t

/-- PlaceHoursFilter.parse_day: strip, lower-case, look up in day_mapping;
an unknown token raises ValueError, modelled as none. -/
def parse_day (day_str : List Char) : Option (List Char) :=
  lookupAssoc (lowerL (pyStrip day_str)) day_mapping

/-- Anchored matcher for one time token of the range pattern,
d{1,2}:d{2}s*(?:AM|PM)? — returns the captured token text and the rest.
The inner greedy s* takes all whitespace; since AM and PM begin with a
non-space character, an upper-case suffix is taken exactly when it follows
that whitespace, and no backtracking split of the whitespace can change the
overall match. -/
def matchTimeTokAt (l : List Char) : Option (List Char × List Char) :=
  match matchClockAt l with
  | none => none
  | some (hd, md, r) =>
    let sp := r.takeWhile pyIsSpace
    let r2 := r.dropWhile pyIsSpace
    match r2 with
    | 'A' :: 'M' :: rest => some (hd ++ ':' :: md ++ sp ++ ['A', 'M'], rest)
    | 'P' :: 'M' :: rest => some (hd ++ ':' :: md ++ sp ++ ['P', 'M'], rest)
    | _ => some (hd ++ ':' :: md ++ sp, r2)

/-- Anchored matcher for parse_hours_string's full range pattern
(tok)s*[dash]s*(tok) with dash either an en dash or a hyphen; returns the
two captured groups. -/
def matchRangeAt (l : List Char) : Option (List Char × List Char) :=
  match matchTimeTokAt l with
  | none => none
  | some (g1, r) =>
    match r.dropWhile pyIsSpace with
    | c :: r2 =>
      if c = '–' ∨ c = '-' then
        match matchTimeTokAt (r2.dropWhile pyIsSpace) with
        | some (g2, _) => some (g1, g2)
        | none => none
      else none
    | [] => none

/-- Body of parse_hours_string's per-segment loop: search the segment for
the range pattern; on a match parse both captured groups with parse_time,
skipping the segment (with a warning in the source) when either raises
ValueError; a segment with no match contributes nothing. -/
def segParse (range_str : List Char) : List (PyTime × PyTime) :=
  match searchA matchRangeAt range_str with
  | none => []
  | some (g1, g2) =>
    match parse_time g1, parse_time g2 with
    | some t1, some t2 => [(t1, t2)]
    | _, _ => []

/-- Body of parse_hours_string after its initial strip: a string
containing "closed" (case-insensitive) yields no intervals; otherwise one
containing "24 hours" (case-insensitive, the redundant "open 24 hours"
disjunct kept from the source) yields the single interval 00:00 to 23:59;
otherwise split on commas, strip each segment and collect one interval per
matching segment. -/
def parse_hours_core (s : List Char) : List (PyTime × PyTime) :=
  if containsSub (cs "closed") (lowerL s) then []
  else if containsSub (cs "24 hours") (lowerL s)
       || containsSub (cs "open 24 hours") (lowerL s) then
    [(⟨0, 0⟩, ⟨23, 59⟩)]
  else
    ((splitOnComma s).map pyStrip).flatMap segParse

/-- PlaceHoursFilter.parse_hours_string: strip the input, then apply the
special cases and per-segment extraction above. -/
def parse_hours_string (hours_str : List Char) : List (PyTime × PyTime) :=
  parse_hours_core (pyStrip hours_str)

/-- A JSON value stored in a place record, as far as this program inspects
them: a string or a list of strings (the hours field). -/
inductive PValue where
  | str : List Char → PValue
  | strList : List (List Char) → PValue
deriving DecidableEq, Repr

/-- A place record: an ordered dict, modelled as an association list. -/
abbrev Place := List (List Char × PValue)

/-- Python truthiness of a place-record value (empty string and empty list
are falsy). -/
def pvTruthy : PValue → Bool
  | .str s => !s.isEmpty
  | .strList l => !l.isEmpty

/-- Iterating `for hours_entry in place["hours"]`: over a list value this
yields its elements; over a string value Python yields its one-character
strings. -/
def entriesOf : PValue → List (List Char)
  | .str s => s.map (fun c => [c])
  | .strList l => l

/-- PlaceHoursFilter.is_place_open: closed when the hours field is absent
or falsy; otherwise take the first hours entry that starts with
"<query_day>:", closed if none (or if that entry is falsy); otherwise the
place is open exactly when the query time lies in [start, end] of some
interval parsed from that entire entry. -/
def is_place_open (place : Place) (query_time : PyTime) (query_day : List Char) : Bool :=
  match lookupAssoc (cs "hours") place with
  | none => false
  | some v =>
    if pvTruthy v = false then false
    else
      match (entriesOf v).find? (fun e => (query_day ++ [':']).isPrefixOf e) with
      | none => false
      | some day_hours =>
        if day_hours.isEmpty then false
        else
          (parse_hours_string day_hours).any
            (fun iv => timeLe iv.1 query_time && timeLe query_time iv.2)

/-- `place.copy()` followed by `pop("hours", None)`: the same record
without its hours key. -/
def removeHours (p : Place) : Place :=
  p.filter (fun kv => decide (kv.1 ≠ cs "hours"))

/-- PlaceHoursFilter.filter_open_places: keep the open places in input
order, each emitted as a copy with the hours field removed. -/
def filter_open_places (places : List Place) (query_time : PyTime) (query_day : List Char) : List Place :=
  match places with
  | [] => []
  | p :: rest =>
    if is_place_open p query_time query_day then
      removeHours p :: filter_open_places rest query_time query_day
    else
      filter_open_places rest query_time query_day

/-! ## Concrete places used by the claims -/

/-- The split-shift hours entry of the spec's worked example. -/
def splitShiftEntry : List Char := cs "Monday: 11:00 AM – 2:00 PM, 5:00 – 9:00 PM"

/-- A place whose Monday hours are the split-shift example. -/
def splitShiftPlace : Place :=
  [(cs "name", PValue.str (cs "Example Cafe")),
   (cs "hours", PValue.strList [splitShiftEntry])]

/-- A place open Monday 9:00 AM to 5:00 PM. -/
def mondayPlace : Place :=
  [(cs "name", PValue.str (cs "Office")),
   (cs "hours", PValue.strList [cs "Monday: 9:00 AM – 5:00 PM"])]

/-- A place with no hours key at all. -/
def noHoursPlace : Place := [(cs "name", PValue.str (cs "Mystery"))]

/-- A place whose hours list is empty. -/
def emptyHoursPlace : Place :=
  [(cs "name", PValue.str (cs "Empty")), (cs "hours", PValue.strList [])]

/-- A place with an overnight Monday schedule. -/
def overnightPlace : Place :=
  [(cs "hours", PValue.strList [cs "Monday: 10:00 PM – 2:00 AM"])]

/-- A place whose Monday schedule writes its AM and PM suffixes in lower
case. -/
def lowercasePlace : Place :=
  [(cs "hours", PValue.strList [cs "Monday: 9:00 am – 5:00 pm"])]

/-! ## Helper lemmas -/

/-- Evaluating the open test for a place whose hours lookup, truthiness and
matched day entry are known: only the interval scan over the matched
entry's parse remains. -/
theorem is_place_open_concrete_entry (place : Place) (qday : List Char)
    (v : PValue) (e : List Char)
    (h1 : lookupAssoc (cs "hours") place = some v)
    (h2 : pvTruthy v = true)
    (h3 : (entriesOf v).find? (fun x => (qday ++ [':']).isPrefixOf x) = some e)
    (h4 : e.isEmpty = false) (qt : PyTime) :
    is_place_open place qt qday =
      (parse_hours_string e).any
        (fun iv => timeLe iv.1 qt && timeLe qt iv.2) := by
  unfold is_place_open
  rw [h1]
  simp [h2, h3, h4]

/-- An interval whose start is not at or before its end contains no query
time at all, because the scan tests start before-or-equal query and query
before-or-equal end. -/
theorem inverted_interval_never_hits (a b t : PyTime)
    (h : timeLe a b = false) : (timeLe a t && timeLe t b) = false := by
  cases hat : timeLe a t with
  | false => simp [hat]
  | true =>
    cases htb : timeLe t b with
    | false => simp [htb]
    | true =>
      exfalso
      simp only [timeLe, decide_eq_true_eq, decide_eq_false_iff_not] at hat htb h
      omega

/-! ## Claims -/

/-- C1 (counterexample): contrary to the claim, the evaluator does not
report closed at 3:00 PM for the split-shift schedule "11:00 AM – 2:00 PM,
5:00 – 9:00 PM" — the suffix-less "5:00" parses as 05:00, so the second
interval is [05:00, 21:00], which contains 15:00. -/
theorem C1_counterexample :
    ¬ (is_place_open splitShiftPlace ⟨15, 0⟩ (cs "Monday") = false) := by
  decide

/-- C1 (amended): the split-shift string yields exactly the two intervals
[11:00, 14:00] and [05:00, 21:00] (each AM/PM-less token parsed
independently from only an adjacent suffix, so "5:00" becomes 05:00); the
evaluator reports open at 1:00 PM, open at 6:00 PM, and — unlike the
original claim — also open at 3:00 PM. -/
theorem C1_theorem :
    parse_hours_string (cs "11:00 AM – 2:00 PM, 5:00 – 9:00 PM") =
      [(⟨11, 0⟩, ⟨14, 0⟩), (⟨5, 0⟩, ⟨21, 0⟩)]
    ∧ parse_hours_string splitShiftEntry =
      [(⟨11, 0⟩, ⟨14, 0⟩), (⟨5, 0⟩, ⟨21, 0⟩)]
    ∧ is_place_open splitShiftPlace ⟨13, 0⟩ (cs "Monday") = true
    ∧ is_place_open splitShiftPlace ⟨18, 0⟩ (cs "Monday") = true
    ∧ is_place_open splitShiftPlace ⟨15, 0⟩ (cs "Monday") = true := by
  decide

/-- C7: parse_time maps 12-hour tokens to the same time as the equivalent
24-hour tokens ("2:30 PM" equals "14:30", namely 14:30; "12:00 AM" is
00:00; "12:00 PM" is 12:00), and whenever the AM/PM branch of parse_time
matches a token with hour h, minute m and suffix flag pm, the resulting
hour is 0 for AM hour 12, 12 for PM hour 12, h + 12 for every other PM
hour, and h otherwise. -/
theorem C7_theorem :
    parse_time (cs "2:30 PM") = parse_time (cs "14:30")
    ∧ parse_time (cs "2:30 PM") = some ⟨14, 30⟩
    ∧ parse_time (cs "12:00 AM") = some ⟨0, 0⟩
    ∧ parse_time (cs "12:00 PM") = some ⟨12, 0⟩
    ∧ (∀ (s : List Char) (h m : Nat) (pm : Bool),
        (containsSub (cs "AM") (upperL (pyStrip s))
          || containsSub (cs "PM") (upperL (pyStrip s))) = true →
        searchA matchClockSuffixAt (upperL (pyStrip s)) = some (h, m, pm) →
        parse_time s =
          mkTime (if pm then (if h = 12 then 12 else h + 12)
                  else (if h = 12 then 0 else h)) m) := by
  refine ⟨by decide, by decide, by decide, by decide, ?_⟩
  intro s h m pm hb hs
  unfold parse_time
  simp only [hb, hs, if_true]
  congr 1
  cases pm with
  | false => by_cases h12 : h = 12 <;> simp [h12]
  | true => by_cases h12 : h = 12 <;> simp [h12]

/-- C7 witness: the general AM/PM-branch conversion rule applied to the
concrete token "2:30 PM". -/
theorem C7_witness :
    (containsSub (cs "AM") (upperL (pyStrip (cs "2:30 PM")))
      || containsSub (cs "PM") (upperL (pyStrip (cs "2:30 PM")))) = true
    ∧ parse_time (cs "2:30 PM") =
        mkTime (if true then (if 2 = 12 then 12 else 2 + 12)
                else (if 2 = 12 then 0 else 2)) 30 :=
  ⟨by decide, C7_theorem.2.2.2.2 (cs "2:30 PM") 2 30 true (by decide) (by decide)⟩

/-- C8: the overnight range "10:00 PM – 2:00 AM" parses to the single
interval (22:00, 02:00) whose start is after its end; no query time
satisfies the start-before-query-before-end test against an interval whose
start is not at or before its end, and a place whose matched entry is that
overnight schedule is reported closed at every query time. -/
theorem C8_theorem :
    parse_hours_string (cs "10:00 PM – 2:00 AM") = [(⟨22, 0⟩, ⟨2, 0⟩)]
    ∧ (∀ a b t : PyTime, timeLe a b = false →
        (timeLe a t && timeLe t b) = false)
    ∧ (∀ qt : PyTime, is_place_open overnightPlace qt (cs "Monday") = false) := by
  refine ⟨by decide, fun a b t h => inverted_interval_never_hits a b t h, ?_⟩
  intro qt
  rw [is_place_open_concrete_entry overnightPlace (cs "Monday")
        (PValue.strList [cs "Monday: 10:00 PM – 2:00 AM"])
        (cs "Monday: 10:00 PM – 2:00 AM")
        (by decide) (by decide) (by decide) (by decide) qt]
  have hp : parse_hours_string (cs "Monday: 10:00 PM – 2:00 AM") =
      [(⟨22, 0⟩, ⟨2, 0⟩)] := by decide
  rw [hp]
  simp only [List.any_cons, List.any_nil, Bool.or_false]
  exact inverted_interval_never_hits ⟨22, 0⟩ ⟨2, 0⟩ qt (by decide)

/-- C8 witness: the never-satisfied test instantiated at the parsed
overnight interval and the query time 23:00. -/
theorem C8_witness :
    timeLe ⟨22, 0⟩ ⟨2, 0⟩ = false
    ∧ (timeLe (⟨22, 0⟩ : PyTime) ⟨23, 0⟩ && timeLe ⟨23, 0⟩ ⟨2, 0⟩) = false :=
  ⟨by decide, C8_theorem.2.1 ⟨22, 0⟩ ⟨2, 0⟩ ⟨23, 0⟩ (by decide)⟩

/-- C10: the range pattern matches AM/PM suffixes case-sensitively, so the
all-lower-case schedule "9:00 am – 5:00 pm" yields no intervals and the
place is reported closed at every query time that day, even though
parse_time upper-cases its input and accepts the same lower-case suffixes
on a query token ("9:00 am" parses to 09:00 and "5:00 pm" to 17:00). -/
theorem C10_theorem :
    parse_hours_string (cs "9:00 am – 5:00 pm") = []
    ∧ (∀ qt : PyTime, is_place_open lowercasePlace qt (cs "Monday") = false)
    ∧ parse_time (cs "9:00 am") = some ⟨9, 0⟩
    ∧ parse_time (cs "5:00 pm") = some ⟨17, 0⟩ := by
  refine ⟨by decide, ?_, by decide, by decide⟩
  intro qt
  rw [is_place_open_concrete_entry lowercasePlace (cs "Monday")
        (PValue.strList [cs "Monday: 9:00 am – 5:00 pm"])
        (cs "Monday: 9:00 am – 5:00 pm")
        (by decide) (by decide) (by decide) (by decide) qt]
  have hp : parse_hours_string (cs "Monday: 9:00 am – 5:00 pm") = [] := by
    decide
  rw [hp]
  rfl

/-! ## Batch filter (C5) -/

/-- The batch-filter loop equals filtering by the open test and mapping
the hours removal, in input order. -/
theorem filter_open_places_eq (places : List Place) (qt : PyTime) (qd : List Char) :
    filter_open_places places qt qd =
      (places.filter (fun p => is_place_open p qt qd)).map removeHours := by
  induction places with
  | nil => rfl
  | cons p rest ih =>
    unfold filter_open_places
    by_cases h : is_place_open p qt qd = true
    · simp [List.filter_cons, h, ih]
    · simp only [Bool.not_eq_true] at h
      simp [List.filter_cons, h, ih]

/-- A record with its hours removed has no hours key. -/
theorem lookup_removeHours_self (p : Place) :
    lookupAssoc (cs "hours") (removeHours p) = none := by
  induction p with
  | nil => rfl
  | cons kv t ih =>
    obtain ⟨k1, v1⟩ := kv
    rw [removeHours, List.filter_cons]
    by_cases hk : k1 = cs "hours"
    · rw [if_neg (by simp [hk])]
      exact ih
    · rw [if_pos (by simp [hk])]
      rw [lookupAssoc, if_neg (fun h => hk h.symm)]
      exact ih

/-- Removing the hours key leaves every other key bound to the same
value. -/
theorem lookup_removeHours_other (p : Place) (k : List Char)
    (hk : k ≠ cs "hours") :
    lookupAssoc k (removeHours p) = lookupAssoc k p := by
  induction p with
  | nil => rfl
  | cons kv t ih =>
    obtain ⟨k1, v1⟩ := kv
    rw [removeHours, List.filter_cons]
    by_cases hh : k1 = cs "hours"
    · rw [if_neg (by simp [hh])]
      have hrhs : lookupAssoc k ((k1, v1) :: t) = lookupAssoc k t := by
        rw [lookupAssoc, if_neg (fun h => hk (h.trans hh))]
      rw [hrhs]
      exact ih
    · rw [if_pos (by simp [hh])]
      rw [lookupAssoc, lookupAssoc]
      by_cases hkk : k = k1
      · rw [if_pos hkk, if_pos hkk]
      · rw [if_neg hkk, if_neg hkk]
        exact ih

/-- C5: the batch filter emits, in input order, exactly the places the
open test accepts, each as a copy of the input record with the hours key
removed; no emitted record has an hours key, and every other key keeps its
value.  (The embedding is purely functional, so the input list and its
records are unchanged by construction.) -/
theorem C5_theorem (places : List Place) (qt : PyTime) (qd : List Char) :
    filter_open_places places qt qd =
      (places.filter (fun p => is_place_open p qt qd)).map removeHours
    ∧ (∀ q ∈ filter_open_places places qt qd,
        lookupAssoc (cs "hours") q = none)
    ∧ (∀ (p : Place) (k : List Char), k ≠ cs "hours" →
        lookupAssoc k (removeHours p) = lookupAssoc k p) := by
  refine ⟨filter_open_places_eq places qt qd, ?_, ?_⟩
  · intro q hq
    rw [filter_open_places_eq] at hq
    obtain ⟨p, _, rfl⟩ := List.mem_map.mp hq
    exact lookup_removeHours_self p
  · intro p k hk
    exact lookup_removeHours_other p k hk

/-- C5 witness: the frame conditions at a concrete one-place input. -/
theorem C5_witness :
    filter_open_places [mondayPlace] ⟨10, 0⟩ (cs "Monday") =
      ([mondayPlace].filter
        (fun p => is_place_open p ⟨10, 0⟩ (cs "Monday"))).map removeHours
    ∧ lookupAssoc (cs "name") (removeHours mondayPlace) =
        lookupAssoc (cs "name") mondayPlace :=
  ⟨(C5_theorem [mondayPlace] ⟨10, 0⟩ (cs "Monday")).1,
   (C5_theorem [mondayPlace] ⟨10, 0⟩ (cs "Monday")).2.2 mondayPlace
     (cs "name") (by decide)⟩

/-! ## Day normalization (C6) -/

/-- First-match association lookup over a list with pairwise distinct keys
finds exactly the pairs that are in the list. -/
theorem lookupAssoc_some_iff_mem {β : Type} (l : List (List Char × β))
    (hnd : (l.map Prod.fst).Nodup) (k : List Char) (v : β) :
    lookupAssoc k l = some v ↔ (k, v) ∈ l := by
  induction l with
  | nil => simp [lookupAssoc]
  | cons kv t ih =>
    obtain ⟨k', v'⟩ := kv
    simp only [List.map_cons, List.nodup_cons] at hnd
    rw [lookupAssoc]
    by_cases hk : k = k'
    · subst hk
      rw [if_pos rfl]
      constructor
      · intro hv
        have hv' : v' = v := Option.some.inj hv
        rw [← hv']
        exact List.mem_cons_self _ _
      · intro hmem
        rcases List.mem_cons.mp hmem with heq | hmem2
        · have hv : v = v' := congrArg Prod.snd heq
          rw [hv]
        · exact absurd (List.mem_map.mpr ⟨(k, v), hmem2, rfl⟩) hnd.1
    · rw [if_neg hk, ih hnd.2]
      constructor
      · intro h
        exact List.mem_cons_of_mem _ h
      · intro hmem
        rcases List.mem_cons.mp hmem with heq | hmem2
        · exact absurd (congrArg Prod.fst heq) hk
        · exact hmem2

/-- C6: parse_day succeeds exactly when the trimmed, case-folded token is
one of the seven full English day names or their 3-letter abbreviations,
and then returns the canonical capitalized day name; "MON", "Mon" and
"monday" all yield "Monday", and any other token (such as "Tues") fails
(the source raises ValueError, modelled as none). -/
theorem C6_theorem :
    (∀ s d : List Char, parse_day s = some d ↔
      (lowerL (pyStrip s), d) ∈
        ([(cs "monday", cs "Monday"), (cs "tuesday", cs "Tuesday"),
          (cs "wednesday", cs "Wednesday"), (cs "thursday", cs "Thursday"),
          (cs "friday", cs "Friday"), (cs "saturday", cs "Saturday"),
          (cs "sunday", cs "Sunday"), (cs "mon", cs "Monday"),
          (cs "tue", cs "Tuesday"), (cs "wed", cs "Wednesday"),
          (cs "thu", cs "Thursday"), (cs "fri", cs "Friday"),
          (cs "sat", cs "Saturday"), (cs "sun", cs "Sunday")] :
          List (List Char × List Char)))
    ∧ parse_day (cs "MON") = some (cs "Monday")
    ∧ parse_day (cs "Mon") = some (cs "Monday")
    ∧ parse_day (cs "monday") = some (cs "Monday")
    ∧ parse_day (cs "Tues") = none := by
  refine ⟨?_, by decide, by decide, by decide, by decide⟩
  intro s d
  unfold parse_day
  exact lookupAssoc_some_iff_mem day_mapping (by decide) (lowerL (pyStrip s)) d

/-- C6 witness: the characterization applied to the concrete token
"mon". -/
theorem C6_witness : parse_day (cs "mon") = some (cs "Monday") :=
  (C6_theorem.1 (cs "mon") (cs "Monday")).mpr (by decide)

/-! ## Substring and strip lemmas -/

/-- The substring test is the infix relation. -/
theorem containsSub_eq_true_iff (n m : List Char) :
    containsSub n m = true ↔ n <:+: m := by
  induction m with
  | nil =>
    simp [containsSub, List.isEmpty_iff]
  | cons c t ih =>
    rw [containsSub]
    simp only [Bool.or_eq_true, List.isPrefixOf_iff_prefix, ih,
      List.infix_cons_iff]

/-- A prefix whose characters never equal the needle's first character
cannot take part in any occurrence, so it can be discarded. -/
theorem containsSub_append_head (n0 : Char) (n' a s : List Char)
    (h : n0 ∉ a) :
    containsSub (n0 :: n') (a ++ s) = containsSub (n0 :: n') s := by
  induction a with
  | nil => rfl
  | cons c a' ih =>
    have hne : n0 ≠ c := fun he => h (he ▸ List.mem_cons_self c a')
    rw [List.cons_append, containsSub]
    have hpf : (n0 :: n').isPrefixOf (c :: (a' ++ s)) = false := by
      rw [← Bool.not_eq_true, List.isPrefixOf_iff_prefix]
      intro hp
      exact hne (List.cons_prefix_cons.mp hp).1
    rw [hpf, Bool.false_or]
    exact ih (fun hm => h (List.mem_cons_of_mem c hm))

/-- A string without the needle's first character does not contain the
needle. -/
theorem containsSub_eq_false (n0 : Char) (n' a : List Char) (h : n0 ∉ a) :
    containsSub (n0 :: n') a = false := by
  have := containsSub_append_head n0 n' a [] h
  rw [List.append_nil] at this
  rw [this]
  rfl

/-- Dropping leading whitespace does not change containment of a needle
that starts with a non-whitespace character. -/
theorem containsSub_lstrip (n0 : Char) (n' m : List Char)
    (h0 : pyIsSpace n0 = false) :
    containsSub (n0 :: n') (lstrip m) = containsSub (n0 :: n') m := by
  induction m with
  | nil => rfl
  | cons c t ih =>
    by_cases hc : pyIsSpace c = true
    · have hne : n0 ≠ c := fun he => by rw [he] at h0; rw [h0] at hc; cases hc
      rw [lstrip, List.dropWhile_cons, if_pos hc]
      rw [containsSub]
      have hpf : (n0 :: n').isPrefixOf (c :: t) = false := by
        rw [← Bool.not_eq_true, List.isPrefixOf_iff_prefix]
        intro hp
        exact hne (List.cons_prefix_cons.mp hp).1
      rw [hpf, Bool.false_or]
      exact ih
    · rw [lstrip, List.dropWhile_cons,
        if_neg (by simp only [Bool.not_eq_true] at hc; simp [hc])]

/-- Containment transfers through reversal to the reversed needle. -/
theorem containsSub_reverse (n x : List Char) :
    containsSub n x.reverse = containsSub (n.reverse) x := by
  have hiff : containsSub n x.reverse = true ↔ containsSub n.reverse x = true := by
    rw [containsSub_eq_true_iff, containsSub_eq_true_iff]
    conv_lhs => rw [← List.reverse_reverse n]
    exact List.reverse_infix
  cases hb : containsSub n.reverse x with
  | true => exact hiff.mpr hb
  | false =>
    cases ha : containsSub n x.reverse with
    | false => rfl
    | true =>
      have := hiff.mp ha
      rw [hb] at this
      cases this

/-- Dropping trailing whitespace does not change containment of a needle
that ends with a non-whitespace character. -/
theorem containsSub_rstrip (n m : List Char) (nL : Char) (tL : List Char)
    (hrev : n.reverse = nL :: tL) (hL : pyIsSpace nL = false) :
    containsSub n (rstrip m) = containsSub n m := by
  rw [rstrip, containsSub_reverse, hrev, containsSub_lstrip nL tL _ hL,
    ← hrev, ← containsSub_reverse, List.reverse_reverse]

/-- Stripping both ends does not change containment of a needle that
starts and ends with non-whitespace characters. -/
theorem containsSub_pyStrip (n0 : Char) (n' : List Char) (m : List Char)
    (nL : Char) (tL : List Char) (h0 : pyIsSpace n0 = false)
    (hrev : (n0 :: n').reverse = nL :: tL) (hL : pyIsSpace nL = false) :
    containsSub (n0 :: n') (pyStrip m) = containsSub (n0 :: n') m := by
  rw [pyStrip, containsSub_lstrip n0 n' _ h0,
    containsSub_rstrip _ _ nL tL hrev hL]

/-- Lower-casing never turns whitespace into non-whitespace or back. -/
theorem pyIsSpace_lowerChar (c : Char) :
    pyIsSpace (lowerChar c) = pyIsSpace c := by
  unfold lowerChar
  split <;> rfl

/-- Lower-casing commutes with dropping leading whitespace. -/
theorem lowerL_lstrip (l : List Char) :
    lowerL (lstrip l) = lstrip (lowerL l) := by
  have hpred : (pyIsSpace ∘ lowerChar) = pyIsSpace := funext pyIsSpace_lowerChar
  simp only [lowerL, lstrip]
  rw [List.dropWhile_map, hpred]

/-- Lower-casing commutes with dropping trailing whitespace. -/
theorem lowerL_rstrip (l : List Char) :
    lowerL (rstrip l) = rstrip (lowerL l) := by
  rw [rstrip, rstrip]
  calc lowerL ((lstrip l.reverse).reverse)
      = (lowerL (lstrip l.reverse)).reverse := by
        rw [lowerL, lowerL, List.map_reverse]
    _ = (lstrip (lowerL l.reverse)).reverse := by rw [lowerL_lstrip]
    _ = (lstrip ((lowerL l).reverse)).reverse := by
        rw [lowerL, lowerL, List.map_reverse]

/-- Lower-casing commutes with stripping both ends. -/
theorem lowerL_pyStrip (l : List Char) :
    lowerL (pyStrip l) = pyStrip (lowerL l) := by
  rw [pyStrip, pyStrip, lowerL_lstrip, lowerL_rstrip]

/-- The "closed" test the source performs on the stripped string agrees
with the same test on the unstripped string. -/
theorem contains_lower_strip_closed (s : List Char) :
    containsSub (cs "closed") (lowerL (pyStrip s)) =
      containsSub (cs "closed") (lowerL s) := by
  rw [lowerL_pyStrip]
  exact containsSub_pyStrip 'c' (cs "losed") (lowerL s) 'd' (cs "esolc")
    (by decide) (by decide) (by decide)

/-- The "24 hours" test the source performs on the stripped string agrees
with the same test on the unstripped string. -/
theorem contains_lower_strip_24 (s : List Char) :
    containsSub (cs "24 hours") (lowerL (pyStrip s)) =
      containsSub (cs "24 hours") (lowerL s) := by
  rw [lowerL_pyStrip]
  exact containsSub_pyStrip '2' (cs "4 hours") (lowerL s) 's' (cs "ruoh 42")
    (by decide) (by decide) (by decide)

/-- Evaluating is_place_open once the hours lookup is known. -/
theorem is_place_open_eval (place : Place) (qt : PyTime) (qday : List Char)
    (v : PValue) (h1 : lookupAssoc (cs "hours") place = some v) :
    is_place_open place qt qday =
      (if pvTruthy v = false then false
       else
         match (entriesOf v).find? (fun e => (qday ++ [':']).isPrefixOf e) with
         | none => false
         | some day_hours =>
           if day_hours.isEmpty then false
           else
             (parse_hours_string day_hours).any
               (fun iv => timeLe iv.1 qt && timeLe qt iv.2)) := by
  unfold is_place_open
  rw [h1]

/-- A schedule string containing "closed" in any casing parses to no
intervals. -/
theorem closed_parse_nil (s : List Char)
    (h : containsSub (cs "closed") (lowerL s) = true) :
    parse_hours_string s = [] := by
  have hc : containsSub (cs "closed") (lowerL (pyStrip s)) = true := by
    rw [contains_lower_strip_closed]
    exact h
  rw [parse_hours_string, parse_hours_core, if_pos hc]

/-- A place whose Monday entry is "Monday: Closed". -/
def closedPlace : Place :=
  [(cs "hours", PValue.strList [cs "Monday: Closed"])]

/-- C4: every schedule string that case-insensitively contains "closed"
parses to the empty interval set, whatever else it contains; consequently
a place whose matched day entry contains "closed" is evaluated closed at
every query time. -/
theorem C4_theorem :
    (∀ s : List Char, containsSub (cs "closed") (lowerL s) = true →
      parse_hours_string s = [])
    ∧ (∀ (place : Place) (qt : PyTime) (qday : List Char) (v : PValue)
        (e : List Char),
        lookupAssoc (cs "hours") place = some v →
        (entriesOf v).find? (fun x => (qday ++ [':']).isPrefixOf x) = some e →
        containsSub (cs "closed") (lowerL e) = true →
        is_place_open place qt qday = false) := by
  refine ⟨closed_parse_nil, ?_⟩
  intro place qt qday v e hlk hf hcl
  rw [is_place_open_eval place qt qday v hlk]
  by_cases htr : pvTruthy v = true
  · simp [htr, hf, closed_parse_nil e hcl]
  · have hfl : pvTruthy v = false := by
      revert htr
      cases pvTruthy v <;> simp
    simp [hfl]

/-- C4 witness: the rule applied to the schedule "Closed" and to a place
whose Monday entry is "Monday: Closed", also exercising the claim for a
string with extra text ("closed 24 hours"). -/
theorem C4_witness :
    parse_hours_string (cs "Closed") = []
    ∧ parse_hours_string (cs "closed 24 hours") = []
    ∧ is_place_open closedPlace ⟨12, 0⟩ (cs "Monday") = false :=
  ⟨C4_theorem.1 (cs "Closed") (by decide),
   C4_theorem.1 (cs "closed 24 hours") (by decide),
   C4_theorem.2 closedPlace ⟨12, 0⟩ (cs "Monday")
     (PValue.strList [cs "Monday: Closed"]) (cs "Monday: Closed")
     (by decide) (by decide) (by decide)⟩

/-- C3 (counterexample): "closed 24 hours" contains "24 hours" yet parses
to no intervals, because the "closed" special case is tested first; so the
claim does not hold of every string containing "24 hours". -/
theorem C3_counterexample :
    containsSub (cs "24 hours") (lowerL (cs "closed 24 hours")) = true
    ∧ parse_hours_string (cs "closed 24 hours") = []
    ∧ parse_hours_string (cs "closed 24 hours") ≠
        [(⟨0, 0⟩, ⟨23, 59⟩)] := by
  decide

/-- C3 (amended): every schedule string that contains "24 hours" in any
casing (with or without an "open" prefix) and does not case-insensitively
contain "closed" parses to exactly the single interval 00:00 to 23:59. -/
theorem C3_theorem (s : List Char)
    (h24 : containsSub (cs "24 hours") (lowerL s) = true)
    (hcl : containsSub (cs "closed") (lowerL s) = false) :
    parse_hours_string s = [(⟨0, 0⟩, ⟨23, 59⟩)] := by
  have h24' : containsSub (cs "24 hours") (lowerL (pyStrip s)) = true := by
    rw [contains_lower_strip_24]
    exact h24
  have hcl' : containsSub (cs "closed") (lowerL (pyStrip s)) = false := by
    rw [contains_lower_strip_closed]
    exact hcl
  rw [parse_hours_string, parse_hours_core,
    if_neg (by rw [hcl']; exact Bool.false_ne_true),
    if_pos (by rw [h24']; rfl)]

/-- C3 witness: the amended rule at the concrete string "Open 24 Hours". -/
theorem C3_witness :
    parse_hours_string (cs "Open 24 Hours") = [(⟨0, 0⟩, ⟨23, 59⟩)] :=
  C3_theorem (cs "Open 24 Hours") (by decide) (by decide)

/-! ## The open/closed characterization (C2) -/

/-- A needle of length at least two is not contained in a single-character
string. -/
theorem containsSub_two_single (n0 n1 : Char) (n' : List Char) (x : Char) :
    containsSub (n0 :: n1 :: n') [x] = false := by
  simp [containsSub, List.isPrefixOf]

/-- The empty schedule string parses to no intervals. -/
theorem parse_hours_nil : parse_hours_string [] = [] := by decide

/-- Per-segment extraction never succeeds on a single character (the clock
pattern needs at least four characters). -/
theorem segParse_single (c : Char) : segParse [c] = [] := rfl

/-- A one-character schedule string parses to no intervals: neither special
case can match inside one character and the range pattern needs more. -/
theorem parse_hours_single (c : Char) : parse_hours_string [c] = [] := by
  rw [parse_hours_string]
  by_cases hsp : pyIsSpace c = true
  · have hps : pyStrip [c] = [] := by
      rw [pyStrip, rstrip]
      simp [lstrip, List.dropWhile_cons, hsp]
    rw [hps]
    decide
  · have hps : pyStrip [c] = [c] := by
      rw [pyStrip, rstrip]
      simp [lstrip, List.dropWhile_cons, hsp]
    rw [hps, parse_hours_core]
    have h1 : containsSub (cs "closed") (lowerL [c]) = false :=
      containsSub_two_single 'c' 'l' (cs "osed") (lowerChar c)
    have h2 : containsSub (cs "24 hours") (lowerL [c]) = false :=
      containsSub_two_single '2' '4' (cs " hours") (lowerChar c)
    have h3 : containsSub (cs "open 24 hours") (lowerL [c]) = false :=
      containsSub_two_single 'o' 'p' (cs "en 24 hours") (lowerChar c)
    rw [if_neg (by rw [h1]; exact Bool.false_ne_true),
      if_neg (by rw [h2, h3]; exact Bool.false_ne_true)]
    by_cases hc : c = ','
    · subst hc
      decide
    · have hsplit : splitOnComma [c] = [[c]] := by
        rw [splitOnComma, if_neg hc]
        rfl
      rw [hsplit]
      simp [hps, segParse_single]

/-- C2: is_place_open is true exactly when the place has a non-empty
string-list hours value, that list has an entry starting with
"<queryDay>:", and the query time lies within some interval parsed from
the first such entry; in particular the Monday 9-to-5 place is open at
9:00 and 17:00 and closed at 17:01, and a place with no hours key, an
empty hours list, or no entry for the queried day is closed. -/
theorem C2_theorem :
    (∀ (place : Place) (qt : PyTime) (qday : List Char),
      is_place_open place qt qday = true ↔
        ∃ l, lookupAssoc (cs "hours") place = some (PValue.strList l) ∧
          l ≠ [] ∧
          ∃ e, l.find? (fun x => (qday ++ [':']).isPrefixOf x) = some e ∧
            (parse_hours_string e).any
              (fun iv => timeLe iv.1 qt && timeLe qt iv.2) = true)
    ∧ is_place_open mondayPlace ⟨9, 0⟩ (cs "Monday") = true
    ∧ is_place_open mondayPlace ⟨17, 0⟩ (cs "Monday") = true
    ∧ is_place_open mondayPlace ⟨17, 1⟩ (cs "Monday") = false
    ∧ is_place_open noHoursPlace ⟨12, 0⟩ (cs "Monday") = false
    ∧ is_place_open emptyHoursPlace ⟨12, 0⟩ (cs "Monday") = false
    ∧ is_place_open mondayPlace ⟨12, 0⟩ (cs "Tuesday") = false := by
  refine ⟨?_, by decide, by decide, by decide, by decide, by decide,
    by decide⟩
  intro place qt qday
  cases hlk : lookupAssoc (cs "hours") place with
  | none =>
    unfold is_place_open
    rw [hlk]
    simp [hlk]
  | some v =>
    rw [is_place_open_eval place qt qday v hlk]
    cases v with
    | str s0 =>
      have hfalse : (if pvTruthy (PValue.str s0) = false then false
          else
            match (entriesOf (PValue.str s0)).find?
                (fun e => (qday ++ [':']).isPrefixOf e) with
            | none => false
            | some day_hours =>
              if day_hours.isEmpty then false
              else
                (parse_hours_string day_hours).any
                  (fun iv => timeLe iv.1 qt && timeLe qt iv.2)) = false := by
        by_cases ht : pvTruthy (PValue.str s0) = false
        · rw [if_pos ht]
        · rw [if_neg ht]
          simp only [entriesOf]
          cases hf : (s0.map (fun c => [c])).find?
              (fun e => (qday ++ [':']).isPrefixOf e) with
          | none => rfl
          | some e =>
            have hmem := List.mem_of_find?_eq_some hf
            have hex : ∃ x, e = [x] := by
              obtain ⟨x, -, hx⟩ := List.mem_map.mp hmem
              exact ⟨x, hx.symm⟩
            obtain ⟨x, rfl⟩ := hex
            show (if ([x] : List Char).isEmpty then false
              else (parse_hours_string [x]).any
                (fun iv => timeLe iv.1 qt && timeLe qt iv.2)) = false
            rw [if_neg (by simp), parse_hours_single x]
            rfl
      rw [hfalse]
      simp
    | strList l =>
      by_cases hl : l.isEmpty = true
      · have hl' : l = [] := List.isEmpty_iff.mp hl
        subst hl'
        rw [if_pos (show pvTruthy (PValue.strList []) = false from rfl)]
        simp
      · have hle : l.isEmpty = false := by
          revert hl
          cases l.isEmpty <;> simp
        have htr : pvTruthy (PValue.strList l) = true := by
          show (!l.isEmpty) = true
          rw [hle]
          rfl
        rw [if_neg (by simp [htr])]
        simp only [entriesOf]
        cases hf : l.find? (fun e => (qday ++ [':']).isPrefixOf e) with
        | none =>
          simp [hf]
        | some e =>
          have hpe := List.find?_some hf
          have hene : e.isEmpty = false := by
            cases e with
            | nil =>
              exfalso
              rw [ List.isPrefixOf_iff_prefix] at hpe
              have := List.prefix_nil.mp hpe
              simpa using congrArg List.length this
            | cons a t => rfl
          show ((if e.isEmpty then false
            else (parse_hours_string e).any
              (fun iv => timeLe iv.1 qt && timeLe qt iv.2)) = true) ↔ _
          rw [if_neg (by rw [hene]; exact Bool.false_ne_true)]
          constructor
          · intro h
            refine ⟨l, rfl, ?_, e, hf, h⟩
            intro hnil
            subst hnil
            simp at hf
          · rintro ⟨l', hl', -, e', hf', h'⟩
            have h1 : PValue.strList l = PValue.strList l' :=
              Option.some.inj hl'
            have h2 : l = l' := by
              injection h1
            subst h2
            rw [hf] at hf'
            have h3 : e = e' := Option.some.inj hf'
            rw [h3]
            exact h'

/-- C2 witness: the characterization applied to the Monday 9-to-5 place at
10:00. -/
theorem C2_witness : is_place_open mondayPlace ⟨10, 0⟩ (cs "Monday") = true :=
  (C2_theorem.1 mondayPlace ⟨10, 0⟩ (cs "Monday")).mpr
    ⟨[cs "Monday: 9:00 AM – 5:00 PM"], by decide, by decide,
     cs "Monday: 9:00 AM – 5:00 PM", by decide, by decide⟩

/-! ## Day-prefix invariance (C9) -/

/-- Splitting on commas never yields an empty list of segments. -/
theorem splitOnComma_ne_nil (l : List Char) : splitOnComma l ≠ [] := by
  cases l with
  | nil => simp [splitOnComma]
  | cons c t =>
    rw [splitOnComma]
    by_cases hc : c = ','
    · rw [if_pos hc]
      simp
    · rw [if_neg hc]
      cases hsp : splitOnComma t with
      | nil => simp
      | cons h r => simp

/-- A comma-free prefix is glued onto the first segment of the split. -/
theorem splitOnComma_append (a s : List Char) (h0 : List Char)
    (t0 : List (List Char)) (ha : ∀ c ∈ a, ¬(c = ','))
    (hs : splitOnComma s = h0 :: t0) :
    splitOnComma (a ++ s) = (a ++ h0) :: t0 := by
  induction a with
  | nil => simpa using hs
  | cons c a' ih =>
    have hc : ¬(c = ',') := ha c (List.mem_cons_self c a')
    rw [List.cons_append, splitOnComma, if_neg hc,
      ih (fun x hx => ha x (List.mem_cons_of_mem c hx))]
    rfl

/-- Every character of a segment comes from the split string. -/
theorem splitOnComma_chars (l : List Char) :
    ∀ x ∈ splitOnComma l, ∀ c ∈ x, c ∈ l := by
  induction l with
  | nil =>
    intro x hx c hc
    simp [splitOnComma] at hx
    subst hx
    cases hc
  | cons d t ih =>
    intro x hx c hc
    rw [splitOnComma] at hx
    by_cases hd : d = ','
    · rw [if_pos hd] at hx
      rcases List.mem_cons.mp hx with rfl | hx2
      · cases hc
      · exact List.mem_cons_of_mem d (ih x hx2 c hc)
    · rw [if_neg hd] at hx
      obtain ⟨h0, t0, hs⟩ : ∃ h0 t0, splitOnComma t = h0 :: t0 := by
        cases hsp : splitOnComma t with
        | nil => exact absurd hsp (splitOnComma_ne_nil t)
        | cons h r => exact ⟨h, r, rfl⟩
      rw [hs] at hx
      rcases List.mem_cons.mp hx with rfl | hx2
      · rcases List.mem_cons.mp hc with rfl | hc2
        · exact List.mem_cons_self _ _
        · exact List.mem_cons_of_mem d
            (ih h0 (by rw [hs]; exact List.mem_cons_self _ _) c hc2)
      · exact List.mem_cons_of_mem d
          (ih x (by rw [hs]; exact List.mem_cons_of_mem h0 hx2) c hc)

/-- Characters survive dropping leading whitespace. -/
theorem mem_of_mem_lstrip {c : Char} {l : List Char} (h : c ∈ lstrip l) :
    c ∈ l :=
  (List.dropWhile_sublist pyIsSpace).subset h

/-- Characters survive dropping trailing whitespace. -/
theorem mem_of_mem_rstrip {c : Char} {l : List Char} (h : c ∈ rstrip l) :
    c ∈ l := by
  rw [rstrip, List.mem_reverse] at h
  exact List.mem_reverse.mp (mem_of_mem_lstrip h)

/-- Characters survive stripping both ends. -/
theorem mem_of_mem_pyStrip {c : Char} {l : List Char} (h : c ∈ pyStrip l) :
    c ∈ l :=
  mem_of_mem_rstrip (mem_of_mem_lstrip h)

/-- The six Python whitespace characters. -/
theorem space_cases (x : Char) (h : pyIsSpace x = true) :
    x = ' ' ∨ x = '\t' ∨ x = '\n' ∨ x = '\r' ∨ x = Char.ofNat 11 ∨
      x = Char.ofNat 12 := by
  rw [pyIsSpace] at h
  simp only [Bool.or_eq_true, beq_iff_eq] at h
  tauto

/-- Whitespace is not a digit. -/
theorem space_not_digit (x : Char) (h : pyIsSpace x = true) :
    x.isDigit = false := by
  rcases space_cases x h with rfl | rfl | rfl | rfl | rfl | rfl <;> decide

/-- Whitespace is not a comma. -/
theorem space_ne_comma (x : Char) (h : pyIsSpace x = true) : ¬(x = ',') := by
  rcases space_cases x h with rfl | rfl | rfl | rfl | rfl | rfl <;> decide

/-- Whitespace never lower-cases to a letter or digit we care about. -/
theorem space_lower_ne (x : Char) (h : pyIsSpace x = true) :
    lowerChar x ≠ 'c' ∧ lowerChar x ≠ '2' := by
  rcases space_cases x h with rfl | rfl | rfl | rfl | rfl | rfl <;> decide

/-- Dropping trailing whitespace distributes over a cons with a non-space
head. -/
theorem rstrip_cons (c : Char) (l : List Char) (hc : pyIsSpace c = false) :
    rstrip (c :: l) = c :: rstrip l := by
  rw [rstrip, List.reverse_cons, lstrip, List.dropWhile_append]
  by_cases he : (List.dropWhile pyIsSpace l.reverse).isEmpty = true
  · rw [if_pos he]
    have h2 : rstrip l = [] := by
      rw [rstrip, lstrip, List.isEmpty_iff.mp he]
      rfl
    rw [h2]
    simp [List.dropWhile_cons, hc]
  · rw [if_neg he, List.reverse_append, rstrip, lstrip]
    rfl

/-- Appending only whitespace does not change the right strip. -/
theorem rstrip_append_allspace (a b : List Char)
    (hb : ∀ x ∈ b, pyIsSpace x = true) : rstrip (a ++ b) = rstrip a := by
  rw [rstrip, rstrip, List.reverse_append, lstrip, lstrip,
    List.dropWhile_append_of_pos (fun x hx => hb x (List.mem_reverse.mp hx))]

/-- When the tail still has a non-space character, the right strip of an
append keeps the whole prefix. -/
theorem rstrip_append (P s : List Char) (hn : rstrip s ≠ []) :
    rstrip (P ++ s) = P ++ rstrip s := by
  have hne : (List.dropWhile pyIsSpace s.reverse).isEmpty = false := by
    cases h : (List.dropWhile pyIsSpace s.reverse).isEmpty with
    | false => rfl
    | true =>
      exfalso
      apply hn
      rw [rstrip, lstrip, List.isEmpty_iff.mp h]
      rfl
  rw [rstrip, List.reverse_append, lstrip, List.dropWhile_append,
    if_neg (by rw [hne]; exact Bool.false_ne_true), List.reverse_append,
    rstrip, lstrip, List.reverse_reverse]

/-- The clock pattern needs a digit first, so the range matcher fails at
any non-digit position. -/
theorem matchRangeAt_cons_nondigit (c : Char) (l : List Char)
    (h : c.isDigit = false) : matchRangeAt (c :: l) = none := by
  have h1 : matchClockAt (c :: l) = none := by
    cases l with
    | nil => rfl
    | cons c1 r =>
      have hstep : matchClockAt (c :: c1 :: r) =
          if c.isDigit then
            (if c1.isDigit then
              match r with
              | ':' :: m0 :: m1 :: r2 =>
                if m0.isDigit && m1.isDigit then
                  some ([c, c1], [m0, m1], r2)
                else none
              | _ => none
            else if c1 = ':' then
              match r with
              | m0 :: m1 :: r2 =>
                if m0.isDigit && m1.isDigit then
                  some ([c], [m0, m1], r2)
                else none
              | _ => none
            else none)
          else none := rfl
      rw [hstep, if_neg (by rw [h]; exact Bool.false_ne_true)]
  rw [matchRangeAt, matchTimeTokAt, h1]

/-- The range search skips any digit-free prefix. -/
theorem searchA_matchRangeAt_append (a s : List Char)
    (ha : ∀ c ∈ a, c.isDigit = false) :
    searchA matchRangeAt (a ++ s) = searchA matchRangeAt s := by
  induction a with
  | nil => rfl
  | cons c a' ih =>
    rw [List.cons_append, searchA,
      matchRangeAt_cons_nondigit c _ (ha c (List.mem_cons_self c a'))]
    exact ih (fun x hx => ha x (List.mem_cons_of_mem c hx))

/-- Per-segment extraction ignores a digit-free prefix. -/
theorem segParse_append_nondigit (a s : List Char)
    (ha : ∀ c ∈ a, c.isDigit = false) :
    segParse (a ++ s) = segParse s := by
  rw [segParse, segParse, searchA_matchRangeAt_append a s ha]

/-- A digit-free segment contributes no interval. -/
theorem segParse_eq_nil (a : List Char) (ha : ∀ c ∈ a, c.isDigit = false) :
    segParse a = [] := by
  have h := segParse_append_nondigit a [] ha
  rw [List.append_nil] at h
  rw [h]
  rfl

/-- Containing "open 24 hours" implies containing "24 hours". -/
theorem open24_imp_24 (x : List Char)
    (h : containsSub (cs "open 24 hours") x = true) :
    containsSub (cs "24 hours") x = true := by
  rw [containsSub_eq_true_iff] at h
  rw [containsSub_eq_true_iff]
  exact List.IsInfix.trans (by decide) h

/-- A digit-free schedule string with no lower-case 'c' or '2' parses to
no intervals: neither special case fires and no segment has a clock. -/
theorem parse_hours_core_nodigit (X : List Char)
    (hnd : ∀ x ∈ X, x.isDigit = false)
    (hnc : ∀ x ∈ X, lowerChar x ≠ 'c')
    (hn2 : ∀ x ∈ X, lowerChar x ≠ '2') :
    parse_hours_core X = [] := by
  have hmemc : ('c' : Char) ∉ lowerL X := by
    intro hm
    obtain ⟨x, hx, he⟩ := List.mem_map.mp hm
    exact hnc x hx he
  have hmem2 : ('2' : Char) ∉ lowerL X := by
    intro hm
    obtain ⟨x, hx, he⟩ := List.mem_map.mp hm
    exact hn2 x hx he
  have hc1 : containsSub (cs "closed") (lowerL X) = false :=
    containsSub_eq_false 'c' (cs "losed") (lowerL X) hmemc
  have h24 : containsSub (cs "24 hours") (lowerL X) = false :=
    containsSub_eq_false '2' (cs "4 hours") (lowerL X) hmem2
  have ho24 : containsSub (cs "open 24 hours") (lowerL X) = false := by
    cases hov : containsSub (cs "open 24 hours") (lowerL X) with
    | false => rfl
    | true =>
      exfalso
      have h := open24_imp_24 _ hov
      rw [h24] at h
      cases h
  rw [parse_hours_core, if_neg (by rw [hc1]; exact Bool.false_ne_true),
    if_neg (by rw [h24, ho24]; exact Bool.false_ne_true)]
  rw [List.flatMap_eq_nil_iff]
  intro seg hseg
  obtain ⟨x0, hx0, rfl⟩ := List.mem_map.mp hseg
  exact segParse_eq_nil _ (fun ch hch =>
    hnd ch (splitOnComma_chars X x0 hx0 ch (mem_of_mem_pyStrip hch)))

/-- A string whose right strip is empty is all whitespace. -/
theorem allspace_of_rstrip_eq_nil (l : List Char) (h : rstrip l = []) :
    ∀ x ∈ l, pyIsSpace x = true := by
  rw [rstrip, List.reverse_eq_nil_iff, lstrip, List.dropWhile_eq_nil_iff] at h
  intro x hx
  exact h x (List.mem_reverse.mpr hx)

/-- Extending a character condition from a prefix and an all-condition
suffix to their junction. -/
theorem cond_extend {Q : Char → Prop} (c : Char) (P' w : List Char)
    (hP : ∀ x ∈ c :: P', Q x) (hw : ∀ x ∈ w, Q x) :
    ∀ x ∈ c :: (P' ++ w), Q x := by
  intro x hx
  rcases List.mem_cons.mp hx with rfl | hx2
  · exact hP _ (List.mem_cons_self _ _)
  · rcases List.mem_append.mp hx2 with h | h
    · exact hP x (List.mem_cons_of_mem c h)
    · exact hw x h

/-- Stripping an append whose suffix still has content: the prefix stays,
and what remains of the suffix is its leading whitespace followed by its
strip. -/
theorem pyStrip_append_decomp (c : Char) (A' T1 : List Char)
    (hc : pyIsSpace c = false) (hT1 : rstrip T1 ≠ []) :
    pyStrip ((c :: A') ++ T1) =
      (c :: (A' ++ (rstrip T1).takeWhile pyIsSpace)) ++ pyStrip T1 := by
  have hdecomp : rstrip T1 = (rstrip T1).takeWhile pyIsSpace ++ pyStrip T1 := by
    rw [pyStrip, lstrip]
    exact (List.takeWhile_append_dropWhile pyIsSpace (rstrip T1)).symm
  rw [pyStrip, rstrip_append _ _ hT1, List.cons_append, lstrip,
    List.dropWhile_cons, if_neg (by rw [hc]; exact Bool.false_ne_true),
    List.cons_append, List.append_assoc, ← hdecomp]

/-- Stripping an append with an all-whitespace suffix. -/
theorem pyStrip_append_allspace (c : Char) (A' T1 : List Char)
    (hc : pyIsSpace c = false) (hall : ∀ x ∈ T1, pyIsSpace x = true) :
    pyStrip ((c :: A') ++ T1) = c :: rstrip A' := by
  rw [pyStrip, rstrip_append_allspace _ _ hall, rstrip_cons c A' hc, lstrip,
    List.dropWhile_cons, if_neg (by rw [hc]; exact Bool.false_ne_true)]

/-- The parser core ignores a digit-free, comma-free prefix with no
characters lower-casing to 'c' or '2' (and a non-space head): the special
cases fire identically and the prefix is glued onto the first segment,
where the range search skips it. -/
theorem parse_hours_core_append (c : Char) (A' T : List Char)
    (hc : pyIsSpace c = false)
    (hnd : ∀ x ∈ c :: A', x.isDigit = false)
    (hcm : ∀ x ∈ c :: A', ¬(x = ','))
    (hlc : ∀ x ∈ c :: A', lowerChar x ≠ 'c')
    (hl2 : ∀ x ∈ c :: A', lowerChar x ≠ '2') :
    parse_hours_core ((c :: A') ++ T) = parse_hours_core T := by
  have hmc : ('c' : Char) ∉ lowerL (c :: A') := by
    intro hm
    obtain ⟨x, hx, he⟩ := List.mem_map.mp hm
    exact hlc x hx he
  have hm2 : ('2' : Char) ∉ lowerL (c :: A') := by
    intro hm
    obtain ⟨x, hx, he⟩ := List.mem_map.mp hm
    exact hl2 x hx he
  have hcl : containsSub (cs "closed") (lowerL ((c :: A') ++ T)) =
      containsSub (cs "closed") (lowerL T) := by
    rw [lowerL, List.map_append]
    exact containsSub_append_head 'c' (cs "losed") _ _ hmc
  have h24eq : containsSub (cs "24 hours") (lowerL ((c :: A') ++ T)) =
      containsSub (cs "24 hours") (lowerL T) := by
    rw [lowerL, List.map_append]
    exact containsSub_append_head '2' (cs "4 hours") _ _ hm2
  have hdisj : (containsSub (cs "24 hours") (lowerL ((c :: A') ++ T))
      || containsSub (cs "open 24 hours") (lowerL ((c :: A') ++ T))) =
      (containsSub (cs "24 hours") (lowerL T)
      || containsSub (cs "open 24 hours") (lowerL T)) := by
    cases h24T : containsSub (cs "24 hours") (lowerL T) with
    | true =>
      simp only [h24eq, h24T, Bool.true_or]
    | false =>
      have hA24 : containsSub (cs "24 hours") (lowerL ((c :: A') ++ T)) =
          false := by
        rw [h24eq]
        exact h24T
      have hoT : containsSub (cs "open 24 hours") (lowerL T) = false := by
        cases ho : containsSub (cs "open 24 hours") (lowerL T) with
        | false => rfl
        | true =>
          exfalso
          have hx := open24_imp_24 _ ho
          rw [h24T] at hx
          cases hx
      have hoA : containsSub (cs "open 24 hours")
          (lowerL ((c :: A') ++ T)) = false := by
        cases ho : containsSub (cs "open 24 hours") (lowerL ((c :: A') ++ T)) with
        | false => rfl
        | true =>
          exfalso
          have hx := open24_imp_24 _ ho
          rw [hA24] at hx
          cases hx
      simp only [hA24, h24T, hoT, hoA]
  rw [parse_hours_core, parse_hours_core, hcl, hdisj]
  by_cases hb1 : containsSub (cs "closed") (lowerL T) = true
  · rw [if_pos hb1, if_pos hb1]
  · rw [if_neg hb1, if_neg hb1]
    by_cases hb2 : (containsSub (cs "24 hours") (lowerL T)
        || containsSub (cs "open 24 hours") (lowerL T)) = true
    · rw [if_pos hb2, if_pos hb2]
    · rw [if_neg hb2, if_neg hb2]
      obtain ⟨T1, R, hs⟩ : ∃ T1 R, splitOnComma T = T1 :: R := by
        cases hsp : splitOnComma T with
        | nil => exact absurd hsp (splitOnComma_ne_nil T)
        | cons h r => exact ⟨h, r, rfl⟩
      rw [splitOnComma_append (c :: A') T T1 R hcm hs, hs, List.map_cons,
        List.map_cons, List.flatMap_cons, List.flatMap_cons]
      congr 1
      by_cases hT1 : rstrip T1 = []
      · have h2 : pyStrip T1 = [] := by
          rw [pyStrip, hT1]
          rfl
        have hall : ∀ x ∈ T1, pyIsSpace x = true :=
          allspace_of_rstrip_eq_nil T1 hT1
        rw [pyStrip_append_allspace c A' T1 hc hall, h2,
          segParse_eq_nil (c :: rstrip A') (fun ch hch => by
            rcases List.mem_cons.mp hch with rfl | hch2
            · exact hnd ch (List.mem_cons_self _ _)
            · exact hnd ch (List.mem_cons_of_mem c (mem_of_mem_rstrip hch2)))]
        rfl
      · rw [pyStrip_append_decomp c A' T1 hc hT1]
        exact segParse_append_nondigit _ _
          (cond_extend c A' _ hnd
            (fun x hx => space_not_digit x (List.mem_takeWhile_imp hx)))

/-- parse_hours_string ignores a prefix that contains no digits, commas,
or characters lower-casing to 'c' or '2', and starts with a non-space
character — such as any "<Day>: " prefix. -/
theorem parse_hours_prefix_inv (c : Char) (P' s : List Char)
    (hc : pyIsSpace c = false)
    (hnd : ∀ x ∈ c :: P', x.isDigit = false)
    (hcm : ∀ x ∈ c :: P', ¬(x = ','))
    (hlc : ∀ x ∈ c :: P', lowerChar x ≠ 'c')
    (hl2 : ∀ x ∈ c :: P', lowerChar x ≠ '2') :
    parse_hours_string ((c :: P') ++ s) = parse_hours_string s := by
  rw [parse_hours_string, parse_hours_string]
  by_cases hs : rstrip s = []
  · have hall : ∀ x ∈ s, pyIsSpace x = true := allspace_of_rstrip_eq_nil s hs
    have hps : pyStrip s = [] := by
      rw [pyStrip, hs]
      rfl
    rw [pyStrip_append_allspace c P' s hc hall, hps,
      parse_hours_core_nodigit (c :: rstrip P')
        (fun x hx => by
          rcases List.mem_cons.mp hx with rfl | hx2
          · exact hnd x (List.mem_cons_self _ _)
          · exact hnd x (List.mem_cons_of_mem c (mem_of_mem_rstrip hx2)))
        (fun x hx => by
          rcases List.mem_cons.mp hx with rfl | hx2
          · exact hlc x (List.mem_cons_self _ _)
          · exact hlc x (List.mem_cons_of_mem c (mem_of_mem_rstrip hx2)))
        (fun x hx => by
          rcases List.mem_cons.mp hx with rfl | hx2
          · exact hl2 x (List.mem_cons_self _ _)
          · exact hl2 x (List.mem_cons_of_mem c (mem_of_mem_rstrip hx2)))]
    decide
  · rw [pyStrip_append_decomp c P' s hc hs]
    exact parse_hours_core_append c _ (pyStrip s) hc
      (cond_extend c P' _ hnd
        (fun x hx => space_not_digit x (List.mem_takeWhile_imp hx)))
      (cond_extend c P' _ hcm
        (fun x hx => space_ne_comma x (List.mem_takeWhile_imp hx)))
      (cond_extend c P' _ hlc
        (fun x hx => (space_lower_ne x (List.mem_takeWhile_imp hx)).1))
      (cond_extend c P' _ hl2
        (fun x hx => (space_lower_ne x (List.mem_takeWhile_imp hx)).2))

/-- The seven canonical capitalized day names produced by parse_day. -/
def canonicalDayNames : List (List Char) :=
  [cs "Monday", cs "Tuesday", cs "Wednesday", cs "Thursday", cs "Friday",
   cs "Saturday", cs "Sunday"]

/-- Prepending any "<Day>: " header leaves the parsed intervals
unchanged. -/
theorem parse_day_entry (D : List Char) (hD : D ∈ canonicalDayNames)
    (s : List Char) :
    parse_hours_string ((D ++ cs ": ") ++ s) = parse_hours_string s := by
  fin_cases hD
  · exact parse_hours_prefix_inv 'M' (cs "onday: ") s (by decide) (by decide)
      (by decide) (by decide) (by decide)
  · exact parse_hours_prefix_inv 'T' (cs "uesday: ") s (by decide) (by decide)
      (by decide) (by decide) (by decide)
  · exact parse_hours_prefix_inv 'W' (cs "ednesday: ") s (by decide)
      (by decide) (by decide) (by decide) (by decide)
  · exact parse_hours_prefix_inv 'T' (cs "hursday: ") s (by decide)
      (by decide) (by decide) (by decide) (by decide)
  · exact parse_hours_prefix_inv 'F' (cs "riday: ") s (by decide) (by decide)
      (by decide) (by decide) (by decide)
  · exact parse_hours_prefix_inv 'S' (cs "aturday: ") s (by decide)
      (by decide) (by decide) (by decide) (by decide)
  · exact parse_hours_prefix_inv 'S' (cs "unday: ") s (by decide) (by decide)
      (by decide) (by decide) (by decide)

/-- The evaluator as the spec words it (section 4.3): identical scan, but
the matched entry's schedule text — the text following the "<Day>: "
header — is what gets parsed, rather than the whole entry. -/
def is_place_open_spec (place : Place) (query_time : PyTime)
    (query_day : List Char) : Bool :=
  match lookupAssoc (cs "hours") place with
  | none => false
  | some v =>
    if pvTruthy v = false then false
    else
      match (entriesOf v).find? (fun e => (query_day ++ [':']).isPrefixOf e) with
      | none => false
      | some day_hours =>
        if day_hours.isEmpty then false
        else
          (parse_hours_string (day_hours.drop (query_day.length + 2))).any
            (fun iv => timeLe iv.1 query_time && timeLe query_time iv.2)

/-- Evaluating the spec-side evaluator once the hours lookup is known. -/
theorem is_place_open_spec_eval (place : Place) (qt : PyTime)
    (qday : List Char) (v : PValue)
    (h1 : lookupAssoc (cs "hours") place = some v) :
    is_place_open_spec place qt qday =
      (if pvTruthy v = false then false
       else
         match (entriesOf v).find? (fun e => (qday ++ [':']).isPrefixOf e) with
         | none => false
         | some day_hours =>
           if day_hours.isEmpty then false
           else
             (parse_hours_string (day_hours.drop (qday.length + 2))).any
               (fun iv => timeLe iv.1 qt && timeLe qt iv.2)) := by
  unfold is_place_open_spec
  rw [h1]

/-- C9: for every canonical day name D, parsing "D: " ++ s equals parsing
s alone; consequently the evaluator, which hands the whole matched entry
(day header included) to the parser, agrees with the spec's evaluator that
parses only the text following the "<Day>: " header, for any place whose
matching entries have that shape. -/
theorem C9_theorem :
    (∀ D ∈ canonicalDayNames, ∀ s : List Char,
      parse_hours_string (D ++ cs ": " ++ s) = parse_hours_string s)
    ∧ (∀ (place : Place) (qt : PyTime) (qday : List Char),
        qday ∈ canonicalDayNames →
        (∀ v, lookupAssoc (cs "hours") place = some v →
          ∀ e ∈ entriesOf v, (qday ++ [':']).isPrefixOf e = true →
            ∃ r, e = qday ++ cs ": " ++ r) →
        is_place_open place qt qday = is_place_open_spec place qt qday) := by
  constructor
  · intro D hD s
    exact parse_day_entry D hD s
  · intro place qt qday hq hshape
    cases hlk : lookupAssoc (cs "hours") place with
    | none =>
      unfold is_place_open is_place_open_spec
      rw [hlk]
    | some v =>
      rw [is_place_open_eval place qt qday v hlk,
        is_place_open_spec_eval place qt qday v hlk]
      by_cases ht : pvTruthy v = false
      · rw [if_pos ht, if_pos ht]
      · rw [if_neg ht, if_neg ht]
        cases hf : (entriesOf v).find? (fun e => (qday ++ [':']).isPrefixOf e) with
        | none => rfl
        | some e =>
          have hmem := List.mem_of_find?_eq_some hf
          have hpred := List.find?_some hf
          obtain ⟨r, hr⟩ := hshape v hlk e hmem hpred
          show (if e.isEmpty then false
            else (parse_hours_string e).any
              (fun iv => timeLe iv.1 qt && timeLe qt iv.2)) =
            (if e.isEmpty then false
            else (parse_hours_string (e.drop (qday.length + 2))).any
              (fun iv => timeLe iv.1 qt && timeLe qt iv.2))
          by_cases he : e.isEmpty = true
          · rw [if_pos he, if_pos he]
          · rw [if_neg he, if_neg he]
            congr 1
            rw [hr]
            have hdrop : (qday ++ cs ": " ++ r).drop (qday.length + 2) = r :=
              List.drop_left' (by rw [List.length_append]; rfl)
            rw [hdrop]
            exact parse_day_entry qday hq r

/-- C9 witness: the evaluator equivalence at the Monday 9-to-5 place. -/
theorem C9_witness :
    is_place_open mondayPlace ⟨10, 0⟩ (cs "Monday") =
      is_place_open_spec mondayPlace ⟨10, 0⟩ (cs "Monday") :=
  C9_theorem.2 mondayPlace ⟨10, 0⟩ (cs "Monday") (by decide)
    (fun v hv => by
      have hl : lookupAssoc (cs "hours") mondayPlace =
          some (PValue.strList [cs "Monday: 9:00 AM – 5:00 PM"]) := by decide
      rw [hl] at hv
      have hv' := Option.some.inj hv
      intro e he hp
      rw [← hv'] at he
      have he' : e = cs "Monday: 9:00 AM – 5:00 PM" := by
        simpa [entriesOf] using he
      exact ⟨cs "9:00 AM – 5:00 PM", by rw [he']; decide⟩)
